import Mathlib

/-!
Verification of the finding-identity and reconciliation core of the
semgrep-action repository (src/semgrep_agent/findings.py and
src/semgrep_agent/semgrepdep.py), as a shallow embedding in Lean.

Machine integers are modelled as `Nat` with explicit reduction modulo
2^64 where the Python dependency (pymmh3, a pure-Python port of
MurmurHash3) masks to 64 bits.
-/

namespace SemgrepAction

/-! ### 64-bit arithmetic helpers (pymmh3 masks with 0xFFFFFFFFFFFFFFFF) -/

def m64 (n : Nat) : Nat := n % 2 ^ 64

def add64 (a b : Nat) : Nat := m64 (a + b)

def mul64 (a b : Nat) : Nat := m64 (a * b)

/-- Binary exclusive-or computed digit by digit over `fuel` bits.
(`Nat.xor` itself is defined by well-founded recursion, which normalizes
too slowly for the concrete hash computations below.) -/
def xorBits (fuel : Nat) (a b : Nat) : Nat :=
  match fuel with
  | 0 => 0
  | fuel + 1 => (if a % 2 = b % 2 then 0 else 1) + 2 * xorBits fuel (a / 2) (b / 2)

/-- 64-bit exclusive-or.  Agrees with Python's `^` on operands below
2^64, which is the range of every operand in the hash (all intermediate
values are masked to 64 bits). -/
def xor64 (a b : Nat) : Nat := xorBits 64 (m64 a) (m64 b)

/-- 64-bit left rotation, `(x << r | x >> (64 - r)) & mask` for masked
`x`: the two halves occupy disjoint bit ranges, so the `or` is a sum. -/
def rotl64 (x r : Nat) : Nat := m64 (x * 2 ^ r) + m64 x / 2 ^ (64 - r)

/-! ### MurmurHash3 x64 128-bit

Model of `pymmh3.hash128(key, seed=0, x64arch=True)`, the hash the
repository uses for finding identifiers.  pymmh3 is a dependency of the
repository (not part of its sources); this embedding follows the
reference MurmurHash3_x64_128 algorithm that pymmh3 implements, and was
cross-checked against the published mmh3 test vectors. -/

def mm3_c1 : Nat := 0x87c37b91114253d5

def mm3_c2 : Nat := 0x4cf5ad432745937f

/-- Little-endian value of a byte list. -/
def leNat : List Nat → Nat
  | [] => 0
  | b :: bs => b + 256 * leNat bs

/-- Split a byte string into its full 16-byte blocks and the tail.  The
`fuel` argument (any bound on the number of blocks, here the length of
the input) keeps the recursion structural. -/
def splitBlocksAux (fuel : Nat) (bs : List Nat) : List (List Nat) × List Nat :=
  match fuel with
  | 0 => ([], bs)
  | fuel + 1 =>
    if 16 ≤ bs.length then
      let rest := splitBlocksAux fuel (bs.drop 16)
      (bs.take 16 :: rest.1, rest.2)
    else ([], bs)

def splitBlocks (bs : List Nat) : List (List Nat) × List Nat :=
  splitBlocksAux bs.length bs

/-- One 16-byte body block round. -/
def mm3Body (hs : Nat × Nat) (block : List Nat) : Nat × Nat :=
  let k1 := leNat (block.take 8)
  let k2 := leNat ((block.drop 8).take 8)
  let k1 := mul64 (rotl64 (mul64 k1 mm3_c1) 31) mm3_c2
  let h1 := xor64 hs.1 k1
  let h1 := add64 (rotl64 h1 27) hs.2
  let h1 := add64 (mul64 h1 5) 0x52dce729
  let k2 := mul64 (rotl64 (mul64 k2 mm3_c2) 33) mm3_c1
  let h2 := xor64 hs.2 k2
  let h2 := add64 (rotl64 h2 31) h1
  let h2 := add64 (mul64 h2 5) 0x38495ab5
  (h1, h2)

/-- Tail rounds (the `switch` fall-through of the reference implementation). -/
def mm3Tail (hs : Nat × Nat) (tail : List Nat) : Nat × Nat :=
  let k1 := leNat (tail.take 8)
  let k2 := leNat (tail.drop 8)
  let h2 := if 8 < tail.length then
      xor64 hs.2 (mul64 (rotl64 (mul64 k2 mm3_c2) 33) mm3_c1)
    else hs.2
  let h1 := if 0 < tail.length then
      xor64 hs.1 (mul64 (rotl64 (mul64 k1 mm3_c1) 31) mm3_c2)
    else hs.1
  (h1, h2)

def fmix64 (k : Nat) : Nat :=
  let k := xor64 k (k / 2 ^ 33)
  let k := mul64 k 0xff51afd7ed558ccd
  let k := xor64 k (k / 2 ^ 33)
  let k := mul64 k 0xc4ceb9fe1a85ec53
  xor64 k (k / 2 ^ 33)

/-- MurmurHash3 x64 128-bit of a byte string, seed 0; returns `h2 << 64 | h1`
exactly as pymmh3's `hash128` does. -/
def mm3_hash128 (bs : List Nat) : Nat :=
  let p := splitBlocks bs
  let hs := p.1.foldl mm3Body (0, 0)
  let hs := mm3Tail hs p.2
  let h1 := xor64 hs.1 bs.length
  let h2 := xor64 hs.2 bs.length
  let h1 := add64 h1 h2
  let h2 := add64 h2 h1
  let h1 := fmix64 h1
  let h2 := fmix64 h2
  let h1 := add64 h1 h2
  let h2 := add64 h2 h1
  h2 * 2 ^ 64 + h1

/-! ### UTF-8 encoding and Python `repr`/`str` of the identity tuple

`pymmh3.hash128` UTF-8-encodes a `str` key; the key is
`str((check_id, path, index, syntactic_context))`, Python's rendering of
a 4-tuple, which calls `repr` on each component. -/

def utf8Char (n : Nat) : List Nat :=
  if n < 0x80 then [n]
  else if n < 0x800 then [0xC0 + n / 64, 0x80 + n % 64]
  else if n < 0x10000 then [0xE0 + n / 4096, 0x80 + n / 64 % 64, 0x80 + n % 64]
  else [0xF0 + n / 262144, 0x80 + n / 4096 % 64, 0x80 + n / 64 % 64, 0x80 + n % 64]

def utf8Encode (s : String) : List Nat :=
  (s.data.map (fun c => utf8Char c.toNat)).flatten

def hexDigitChar (n : Nat) : Char :=
  if n < 10 then Char.ofNat (48 + n) else Char.ofNat (87 + n)

/-- Python `repr` escaping of one character inside a string literal quoted by
`q`.  Control characters are rendered `\xHH`; printable non-ASCII code points
are kept as-is (the repository only ever hashes rule ids, paths and source
text, and all concrete inputs used below are ASCII). -/
def pyEscapeChar (q c : Char) : List Char :=
  if c = '\\' then ['\\', '\\']
  else if c = q then ['\\', q]
  else if c = '\n' then ['\\', 'n']
  else if c = '\r' then ['\\', 'r']
  else if c = '\t' then ['\\', 't']
  else if c.toNat < 32 ∨ c.toNat = 127 then
    ['\\', 'x', hexDigitChar (c.toNat / 16), hexDigitChar (c.toNat % 16)]
  else [c]

/-- Python `repr` of a `str`: single-quoted, unless the string contains a
single quote and no double quote. -/
def pyReprStr (s : String) : String :=
  let q : Char := if s.data.contains '\'' && !(s.data.contains '"') then '"' else '\''
  ⟨q :: (s.data.map (pyEscapeChar q)).flatten ++ [q]⟩

/-- Python `str` of the 4-tuple `(check_id, path, index, syntactic_context)`. -/
def pyStrTuple4 (a b : String) (i : Nat) (d : String) : String :=
  "(" ++ pyReprStr a ++ ", " ++ pyReprStr b ++ ", " ++ toString i ++ ", " ++ pyReprStr d ++ ")"

/-- `pymmh3.hash128(str_id)` on a Python `str`: UTF-8 encode, then hash. -/
def pymmh3_hash128 (s : String) : Nat := mm3_hash128 (utf8Encode s)

/-! ### `textwrap.dedent`

The `syntactic_context` attribute of `Finding` carries
`converter=textwrap.dedent`.  CPython's `textwrap.dedent` works with
multiline regexes on the whole text; since its three regexes (`^[ \t]+$`,
`(^[ \t]*)(?:[^ \t\n])` and `(?m)^margin`) all anchor at line starts and
never match across a newline, it is embedded here line by line: split on
newline, blank out whitespace-only lines, compute the margin as the
longest common prefix of the leading whitespace of the remaining
non-empty lines, strip the margin where it occurs, and re-join. -/

def isBlankChar (c : Char) : Bool := c = ' ' || c = '\t'

def splitOnNl : List Char → List (List Char)
  | [] => [[]]
  | c :: cs =>
    if c = '\n' then [] :: splitOnNl cs
    else
      match splitOnNl cs with
      | [] => [[c]]
      | l :: ls => (c :: l) :: ls

def joinNl : List (List Char) → List Char
  | [] => []
  | [l] => l
  | l :: ls => l ++ '\n' :: joinNl ls

/-- `re.sub('^[ \t]+$', '', text)` on one line: a line made solely of blanks
(at least one) becomes empty. -/
def blankOutWsLine (l : List Char) : List Char :=
  if l ≠ [] && l.all isBlankChar then [] else l

/-- A line matches `(^[ \t]*)(?:[^ \t\n])` iff it has a non-blank character. -/
def hasContent (l : List Char) : Bool := l.any (fun c => !(isBlankChar c))

def leadingWs (l : List Char) : List Char := l.takeWhile isBlankChar

/-- The margin-update loop of `textwrap.dedent`: keep the current margin if
it is a prefix of the new indent, shrink to the new indent if that is a
prefix of the margin, otherwise truncate at the first mismatch (i.e. the
longest common prefix). -/
def marginStep (m ind : List Char) : List Char :=
  if m.isPrefixOf ind then m
  else if ind.isPrefixOf m then ind
  else
    match m, ind with
    | a :: as, b :: bs => if a = b then a :: marginStep as bs else []
    | _, _ => []

def computeMargin : List (List Char) → Option (List Char)
  | [] => Option.none
  | i :: is => Option.some (is.foldl marginStep i)

/-- `re.sub('(?m)^' + margin, '', text)` on one line. -/
def dropMargin (m l : List Char) : List Char :=
  if m.isPrefixOf l then l.drop m.length else l

def dedentLines (lines : List (List Char)) : List (List Char) :=
  match computeMargin (((lines.map blankOutWsLine).filter hasContent).map leadingWs) with
  | Option.none => lines.map blankOutWsLine
  | Option.some m =>
    if m = [] then lines.map blankOutWsLine
    else (lines.map blankOutWsLine).map (dropMargin m)

/-- `textwrap.dedent`. -/
def dedent (s : String) : String := ⟨joinNl (dedentLines (splitOnNl s.data))⟩

/-! ### The data model of findings.py -/

/-- A naive `datetime.datetime` (no microseconds/timezone, the shape the
repository receives from git commit timestamps). -/
structure DateTime where
  year : Nat
  month : Nat
  day : Nat
  hour : Nat
  minute : Nat
  second : Nat
deriving DecidableEq

def padNum (width n : Nat) : String :=
  let s := toString n
  ⟨List.replicate (width - s.length) '0' ++ s.data⟩

/-- `datetime.isoformat()` for a naive datetime with zero microseconds. -/
def DateTime.isoformat (d : DateTime) : String :=
  padNum 4 d.year ++ "-" ++ padNum 2 d.month ++ "-" ++ padNum 2 d.day ++ "T" ++
    padNum 2 d.hour ++ ":" ++ padNum 2 d.minute ++ ":" ++ padNum 2 d.second

/-- `FindingKey` (findings.py): the grouping key, frozen attrs class.  The
source annotates `path` with `type=int`, but attrs type annotations are
inert metadata and the values stored are the path strings from semgrep
results. -/
structure FindingKey where
  check_id : String
  path : String
  syntactic_context : String
deriving DecidableEq

/-- `Finding` (findings.py): one normalized rule match.  Fields are in
source declaration order.  `metadata` is a free-form mapping in the
source; it is modelled as a mapping from string keys to lists of strings,
the shape `is_blocking` consumes.  The `syntactic_context` converter
(`textwrap.dedent`) is applied by `mkFinding` and `evolveIndex` below,
mirroring attrs running converters in `__init__`. -/
structure Finding where
  check_id : String
  path : String
  line : Nat
  column : Nat
  message : String
  severity : Int
  index : Nat
  syntactic_context : String
  end_line : Option Nat
  end_column : Option Nat
  commit_date : Option DateTime
  metadata : List (String × List String)
deriving DecidableEq

/-- The attrs-generated `Finding.__eq__`: it compares exactly the fields
not marked `eq=False`, which are `check_id`, `path` and
`syntactic_context` (every other field, *including `index`*, is declared
with `eq=False`). -/
def findingEq (f g : Finding) : Bool :=
  f.check_id == g.check_id && f.path == g.path && f.syntactic_context == g.syntactic_context

/-- `Finding.syntactic_identifier_int`:
`pymmh3.hash128(str((check_id, path, index, syntactic_context)))`. -/
def Finding.syntactic_identifier_int (f : Finding) : Nat :=
  pymmh3_hash128 (pyStrTuple4 f.check_id f.path f.index f.syntactic_context)

/-- `int.to_bytes(n, byteorder="big", length=len, signed=False)`; raises
`OverflowError` when the integer needs more than `len` bytes. -/
def int_to_bytes_be (n len : Nat) : Except String (List Nat) :=
  if n < 2 ^ (8 * len) then
    Except.ok ((List.range len).map fun i => n / 2 ^ (8 * (len - 1 - i)) % 256)
  else Except.error "OverflowError: int too big to convert"

/-- `binascii.hexlify` decoded to ASCII. -/
def hexlify (bs : List Nat) : String :=
  ⟨(bs.map fun b => [hexDigitChar (b / 16), hexDigitChar (b % 16)]).flatten⟩

/-- `Finding.syntactic_identifier_str`: the identifier int rendered as 16
big-endian bytes, hex-encoded. -/
def Finding.syntactic_identifier_str (f : Finding) : Except String String :=
  (int_to_bytes_be f.syntactic_identifier_int 16).map hexlify

/-- The custom `Finding.__hash__`, which returns
`syntactic_identifier_int()`. -/
def findingHash (f : Finding) : Nat := f.syntactic_identifier_int

def metaGet (m : List (String × List String)) (k : String) : Option (List String) :=
  (m.find? fun kv => kv.1 == k).map Prod.snd

/-- `Finding.is_blocking`:
`"block" in self.metadata.get("dev.semgrep.actions", ["block"])`. -/
def Finding.is_blocking (f : Finding) : Bool :=
  ((metaGet f.metadata "dev.semgrep.actions").getD ["block"]).contains "block"

/-- `Finding.semgrep_severity_to_int`. -/
def semgrep_severity_to_int (severity : String) : Int :=
  if severity == "ERROR" then 2
  else if severity == "WARNING" then 1
  else 0

/-- The attrs `__init__` of `Finding`: runs the `textwrap.dedent`
converter on `syntactic_context`. -/
def mkFinding (check_id path : String) (line column : Nat) (message : String)
    (severity : Int) (index : Nat) (syntactic_context : String)
    (end_line end_column : Option Nat) (commit_date : Option DateTime)
    (metadata : List (String × List String)) : Finding :=
  { check_id := check_id, path := path, line := line, column := column,
    message := message, severity := severity, index := index,
    syntactic_context := dedent syntactic_context,
    end_line := end_line, end_column := end_column,
    commit_date := commit_date, metadata := metadata }

/-- `attr.evolve(finding, index=index)`: rebuilds the instance through
`__init__`, so the dedent converter runs again on the (already stored)
`syntactic_context`. -/
def evolveIndex (f : Finding) (index : Nat) : Finding :=
  mkFinding f.check_id f.path f.line f.column f.message f.severity index
    f.syntactic_context f.end_line f.end_column f.commit_date f.metadata

/-- A raw semgrep result record, with the fields
`Finding.from_semgrep_result` reads: `check_id`, `path`, `start.line`,
`start.col`, `end.line`, `end.col`, `extra.lines`, `extra.message`,
`extra.severity`, `extra.metadata`. -/
structure SemgrepResult where
  check_id : String
  path : String
  start_line : Nat
  start_col : Nat
  result_end_line : Nat
  result_end_col : Nat
  lines : String
  message : String
  severity : String
  metadata : List (String × List String)

/-- `Finding.from_semgrep_result`.  Note the source assigns the finding's
`end_line` from the raw result's end *column* (`result["end"]["col"]`),
which this embedding preserves. -/
def Finding.from_semgrep_result (result : SemgrepResult)
    (committed_datetime : Option DateTime) : FindingKey × Finding :=
  let key : FindingKey :=
    { check_id := result.check_id, path := result.path,
      syntactic_context := result.lines }
  let finding := mkFinding result.check_id result.path
    result.start_line result.start_col result.message
    (semgrep_severity_to_int result.severity) 0 result.lines
    (Option.some result.result_end_col) (Option.some result.result_end_col)
    committed_datetime result.metadata
  (key, finding)

/-! ### `Finding.to_dict` -/

/-- The Python values that appear in `attr.asdict(finding)`. -/
inductive PyVal where
  | str : String → PyVal
  | int : Int → PyVal
  | nullval : PyVal
  | datetime : DateTime → PyVal
  | dict : List (String × List String) → PyVal
deriving DecidableEq

def optNatVal : Option Nat → PyVal
  | Option.none => PyVal.nullval
  | Option.some n => PyVal.int n

def optDateVal : Option DateTime → PyVal
  | Option.none => PyVal.nullval
  | Option.some d => PyVal.datetime d

/-- `attr.asdict(self)`: all fields in declaration order. -/
def attr_asdict (f : Finding) : List (String × PyVal) :=
  [("check_id", PyVal.str f.check_id),
   ("path", PyVal.str f.path),
   ("line", PyVal.int f.line),
   ("column", PyVal.int f.column),
   ("message", PyVal.str f.message),
   ("severity", PyVal.int f.severity),
   ("index", PyVal.int f.index),
   ("syntactic_context", PyVal.str f.syntactic_context),
   ("end_line", optNatVal f.end_line),
   ("end_column", optNatVal f.end_column),
   ("commit_date", optDateVal f.commit_date),
   ("metadata", PyVal.dict f.metadata)]

/-- Python dict assignment `d[k] = v`: overwrite in place if the key
exists, else append. -/
def dictSet (d : List (String × PyVal)) (k : String) (v : PyVal) :
    List (String × PyVal) :=
  if d.any (fun kv => kv.1 == k) then
    d.map fun kv => if kv.1 == k then (k, v) else kv
  else d ++ [(k, v)]

/-- Python dict subscript `d[k]`; `none` models the `KeyError` case. -/
def dictGet? (d : List (String × PyVal)) (k : String) : Option PyVal :=
  (d.find? fun kv => kv.1 == k).map Prod.snd

/-- `Finding.to_dict`: takes `attr.asdict`, drops `None`-valued entries,
adds `syntactic_id`, then re-renders `d["commit_date"]` with
`.isoformat()` — note that the `commit_date` key was just *removed* by
the `None` filter when `commit_date` is `None`, so the subscript raises
`KeyError` in that case. -/
def Finding.to_dict (f : Finding) : Except String (List (String × PyVal)) := do
  let d := (attr_asdict f).filter fun kv => !(kv.2 == PyVal.nullval)
  let sid ← f.syntactic_identifier_str
  let d := dictSet d "syntactic_id" (PyVal.str sid)
  match dictGet? d "commit_date" with
  | Option.none => Except.error "KeyError: commit_date"
  | Option.some v =>
    match v with
    | PyVal.datetime dt => Except.ok (dictSet d "commit_date" (PyVal.str dt.isoformat))
    | _ => Except.error "AttributeError: isoformat"

/-! ### The reconciliation engine (`FindingSets`)

Python `set` membership compares by hash first and `==` second: an
element is already present iff some stored element has the same hash
*and* compares equal.  `Finding` overrides `__hash__` (murmur of the
identity tuple, including `index`) while its `__eq__` ignores `index`,
so the faithful model keeps both tests. -/

def sameEntry (f g : Finding) : Bool :=
  findingHash f == findingHash g && findingEq f g

/-- Insertion into a Python set, keeping first-insertion order. -/
def pySetInsert (s : List Finding) (f : Finding) : List Finding :=
  if s.any (sameEntry f) then s else s ++ [f]

def pySetOfList (l : List Finding) : List Finding := l.foldl pySetInsert []

/-- Python set difference `a - b`. -/
def pySetDiff (a b : List Finding) : List Finding :=
  a.filter fun f => !(b.any (sameEntry f))

/-- `FindingSets` (a frozen dataclass of two dicts); dicts are modelled
as insertion-ordered association lists. -/
structure FindingSets where
  baseline_map : List (FindingKey × List Finding)
  current_map : List (FindingKey × List Finding)

/-- `FindingSets._map_to_set`: flatten each key's list, re-assigning each
member its positional index via `attr.evolve`, into one set. -/
def map_to_set (mapping : List (FindingKey × List Finding)) : List Finding :=
  pySetOfList ((mapping.map fun kv => kv.2.enum.map fun p => evolveIndex p.2 p.1).flatten)

def FindingSets.current_set (fs : FindingSets) : List Finding :=
  map_to_set fs.current_map

def FindingSets.baseline_set (fs : FindingSets) : List Finding :=
  map_to_set fs.baseline_map

/-- `FindingSets.expensive_new`: `current_set() - baseline_set()`. -/
def FindingSets.expensive_new (fs : FindingSets) : List Finding :=
  pySetDiff fs.current_set fs.baseline_set

/-! ### Concrete example values used by the claim theorems -/

/-- A concrete finding `A`. -/
def exFinding : Finding :=
  { check_id := "rule", path := "a.py", line := 1, column := 1,
    message := "msg", severity := 2, index := 0, syntactic_context := "x",
    end_line := Option.none, end_column := Option.none,
    commit_date := Option.none, metadata := [] }

/-- `A` with occurrence index 1 and every other attribute unchanged. -/
def exFinding1 : Finding := { exFinding with index := 1 }

/-- The `FindingKey` of `exFinding`. -/
def exKey : FindingKey :=
  { check_id := "rule", path := "a.py", syntactic_context := "x" }

/-! ### `fix_head_for_github` (semgrepdep.py)

The context manager is embedded as a function from the git state and the
scope body to the final outcome together with the trace of git commands
it issued, in order.  A `git` invocation that fails raises
`sh.ErrorReturnCode`, modelled as `Except.error`; the scope body is any
computation that may itself fail.  `git log` only prints the diagnostic
commit range, so it is modelled as an always-succeeding trace entry, and
so is the restoring `git checkout` in the `finally` block (restoring a
previously recorded position). -/

/-- The git state `fix_head_for_github` consults: the output of
`git branch --show-current` (empty when HEAD is detached), the hash of
`HEAD`, and ref resolution (`Option.none` models an unknown ref, on which
`git rev-parse`/`git checkout` fail). -/
structure GitRepo where
  current_branch : String
  head_rev : String
  resolve : String → Option String

inductive GitCmd where
  | rev_parse : String → GitCmd
  | branch_show_current : GitCmd
  | checkout : String → GitCmd
  | log : String → GitCmd
deriving DecidableEq

/-- Python truthiness of an `Optional[str]`. -/
def truthy : Option String → Bool
  | Option.none => false
  | Option.some s => !(s == "")

/-- `fix_head_for_github(base_commit_ref, head_ref)` around a scope body.
Mirrors the source line by line:
if there is no git repository, yield the base ref unchanged and return;
if the base ref is truthy, resolve it to a hash with `git rev-parse`
(a failure propagates immediately);
if the head ref is truthy, record the current branch (falling back to
`git rev-parse HEAD` when the branch output is empty) and check the head
ref out;
inside `try`, when the base ref is not `None`, log the scanned range,
then yield the resolved base ref to the body;
in `finally`, when a position was recorded, check it back out. -/
def fix_head_for_github {α : Type} (repo : Option GitRepo)
    (base_commit_ref head_ref : Option String)
    (body : Option String → Except String α) :
    Except String α × List GitCmd :=
  match repo with
  | Option.none => (body base_commit_ref, [])
  | Option.some repo =>
    let resolveBase : Except String (Option String) × List GitCmd :=
      match base_commit_ref with
      | Option.some b =>
        if b == "" then (Except.ok base_commit_ref, [])
        else
          match repo.resolve b with
          | Option.some h => (Except.ok (Option.some h), [GitCmd.rev_parse b])
          | Option.none =>
            (Except.error ("sh.ErrorReturnCode: git rev-parse " ++ b), [GitCmd.rev_parse b])
      | Option.none => (Except.ok Option.none, [])
    match resolveBase with
    | (Except.error e, tr0) => (Except.error e, tr0)
    | (Except.ok base_ref, tr0) =>
      let checkoutHead : Except String (Option String) × List GitCmd :=
        match head_ref with
        | Option.some h =>
          if h == "" then (Except.ok Option.none, [])
          else
            let stashed :=
              if repo.current_branch == "" then repo.head_rev else repo.current_branch
            let tr1 :=
              if repo.current_branch == "" then
                [GitCmd.branch_show_current, GitCmd.rev_parse "HEAD"]
              else [GitCmd.branch_show_current]
            match repo.resolve h with
            | Option.some _ => (Except.ok (Option.some stashed), tr1 ++ [GitCmd.checkout h])
            | Option.none =>
              (Except.error ("sh.ErrorReturnCode: git checkout " ++ h), tr1 ++ [GitCmd.checkout h])
        | Option.none => (Except.ok Option.none, [])
      match checkoutHead with
      | (Except.error e, tr1) => (Except.error e, tr0 ++ tr1)
      | (Except.ok stashed_rev, tr1) =>
        let tr2 :=
          match base_ref with
          | Option.some b => [GitCmd.log (b ++ "..HEAD")]
          | Option.none => []
        let res := body base_ref
        let tr3 :=
          match stashed_rev with
          | Option.some s => [GitCmd.checkout s]
          | Option.none => []
        (res, tr0 ++ tr1 ++ tr2 ++ tr3)

/-- A concrete repository state: on branch `main`, every ref resolves. -/
def exRepo : GitRepo :=
  { current_branch := "main", head_rev := "deadbeef",
    resolve := fun _ => Option.some "deadbeef" }

/-- A scope body that succeeds, returning the base ref it was given. -/
def exBody : Option String → Except String (Option String) := fun b => Except.ok b

/-- A scope body that raises. -/
def exErrBody : Option String → Except String (Option String) :=
  fun _ => Except.error "RuntimeError: boom"

/-- Uniform indentation of a text: the prefix `p` prepended to every
line. -/
def indent_uniform (p : List Char) (s : String) : String :=
  ⟨joinNl ((splitOnNl s.data).map fun l => p ++ l)⟩

/-! ## Lemmas about `textwrap.dedent` -/

theorem any_not_blank_eq (l : List Char) :
    l.any (fun c => !(isBlankChar c)) = !(l.all isBlankChar) := by
  induction l with
  | nil => rfl
  | cons c cs ih => simp [List.any_cons, List.all_cons, ih]

theorem hasContent_eq_not_all (l : List Char) :
    hasContent l = !(l.all isBlankChar) := any_not_blank_eq l

theorem hasContent_append_blank (p l : List Char) (hp : p.all isBlankChar = true) :
    hasContent (p ++ l) = hasContent l := by
  simp [hasContent_eq_not_all, List.all_append, hp]

theorem blankOut_eq (l : List Char) :
    blankOutWsLine l = if hasContent l then l else [] := by
  unfold blankOutWsLine
  rcases l with _ | ⟨c, cs⟩
  · simp [hasContent]
  · rw [hasContent_eq_not_all]
    cases h : (c :: cs).all isBlankChar <;> simp [h]

theorem blankOut_append (p l : List Char) (hp : p.all isBlankChar = true) :
    blankOutWsLine (p ++ l) = if hasContent l then p ++ l else [] := by
  rw [blankOut_eq, hasContent_append_blank p l hp]

theorem leadingWs_append (p l : List Char) (hp : p.all isBlankChar = true) :
    leadingWs (p ++ l) = p ++ leadingWs l := by
  induction p with
  | nil => rfl
  | cons c cs ih =>
    simp only [List.all_cons, Bool.and_eq_true] at hp
    simp only [List.cons_append, leadingWs, List.takeWhile_cons_of_pos hp.1]
    have := ih hp.2
    simp only [leadingWs] at this
    rw [this]

/-- The plain longest-common-prefix function; `marginStep` computes it. -/
def lcp : List Char → List Char → List Char
  | a :: as, b :: bs => if a = b then a :: lcp as bs else []
  | _, _ => []

theorem lcp_of_prefix_left : ∀ {m n : List Char}, m <+: n → lcp m n = m := by
  intro m
  induction m with
  | nil => intro n _; cases n <;> rfl
  | cons a as ih =>
    intro n h
    rcases n with _ | ⟨b, bs⟩
    · exact absurd h (by simp)
    · rcases (List.cons_prefix_cons).mp h with ⟨hab, hpre⟩
      subst hab
      simp [lcp, ih hpre]

theorem lcp_of_prefix_right : ∀ {m n : List Char}, n <+: m → lcp m n = n := by
  intro m
  induction m with
  | nil =>
    intro n h
    rw [List.prefix_nil.mp h]; rfl
  | cons a as ih =>
    intro n h
    rcases n with _ | ⟨b, bs⟩
    · rfl
    · rcases (List.cons_prefix_cons).mp h with ⟨hab, hpre⟩
      subst hab
      simp [lcp, ih hpre]

theorem marginStep_eq_lcp : ∀ m n : List Char, marginStep m n = lcp m n := by
  intro m
  induction m with
  | nil =>
    intro n
    unfold marginStep
    rw [if_pos (by simp [List.isPrefixOf])]
    cases n <;> rfl
  | cons a as ih =>
    intro n
    unfold marginStep
    rcases n with _ | ⟨b, bs⟩
    · rw [if_neg (by simp [List.isPrefixOf]), if_pos (by simp [List.isPrefixOf])]
      rfl
    · by_cases h1 : (a :: as).isPrefixOf (b :: bs) = true
      · rw [if_pos h1]
        exact (lcp_of_prefix_left (List.isPrefixOf_iff_prefix.mp h1)).symm
      · rw [if_neg h1]
        by_cases h2 : (b :: bs).isPrefixOf (a :: as) = true
        · rw [if_pos h2]
          exact (lcp_of_prefix_right (List.isPrefixOf_iff_prefix.mp h2)).symm
        · rw [if_neg h2]
          show (if a = b then a :: marginStep as bs else []) = lcp (a :: as) (b :: bs)
          by_cases hab : a = b
          · subst hab
            simp [lcp, ih bs]
          · simp [lcp, hab]

theorem marginStep_funext : marginStep = lcp :=
  funext fun m => funext fun n => marginStep_eq_lcp m n

theorem lcp_append (p a b : List Char) : lcp (p ++ a) (p ++ b) = p ++ lcp a b := by
  induction p with
  | nil => rfl
  | cons c cs ih => simp [lcp, ih]

theorem lcp_prefix_left : ∀ m n : List Char, lcp m n <+: m := by
  intro m
  induction m with
  | nil => intro n; cases n <;> simp [lcp]
  | cons a as ih =>
    intro n
    rcases n with _ | ⟨b, bs⟩
    · simp [lcp]
    · by_cases hab : a = b
      · subst hab
        rw [show lcp (a :: as) (a :: bs) = a :: lcp as bs from by simp [lcp]]
        exact (List.cons_prefix_cons).mpr ⟨rfl, ih bs⟩
      · simp [lcp, hab]

theorem lcp_prefix_right : ∀ m n : List Char, lcp m n <+: n := by
  intro m
  induction m with
  | nil => intro n; cases n <;> simp [lcp]
  | cons a as ih =>
    intro n
    rcases n with _ | ⟨b, bs⟩
    · simp [lcp]
    · by_cases hab : a = b
      · subst hab
        rw [show lcp (a :: as) (a :: bs) = a :: lcp as bs from by simp [lcp]]
        exact (List.cons_prefix_cons).mpr ⟨rfl, ih bs⟩
      · simp [lcp, hab]

theorem foldl_lcp_prefix (l : List (List Char)) :
    ∀ m, (l.foldl lcp m) <+: m ∧ ∀ x ∈ l, (l.foldl lcp m) <+: x := by
  induction l with
  | nil => intro m; exact ⟨List.prefix_refl m, by simp⟩
  | cons x xs ih =>
    intro m
    rcases ih (lcp m x) with ⟨hm, hxs⟩
    refine ⟨hm.trans (lcp_prefix_left m x), ?_⟩
    intro y hy
    rcases List.mem_cons.mp hy with h | h
    · subst h
      exact hm.trans (lcp_prefix_right m y)
    · exact hxs y h

theorem foldl_lcp_append (p : List Char) (l : List (List Char)) :
    ∀ m, ((l.map fun x => p ++ x).foldl lcp (p ++ m)) = p ++ l.foldl lcp m := by
  induction l with
  | nil => intro m; rfl
  | cons x xs ih =>
    intro m
    simp only [List.map_cons, List.foldl_cons, lcp_append]
    exact ih (lcp m x)

theorem dropMargin_nil_of_ne (m : List Char) (hm : m ≠ []) : dropMargin m [] = [] := by
  unfold dropMargin
  rcases m with _ | ⟨c, cs⟩
  · exact absurd rfl hm
  · rfl

theorem dropMargin_nil_margin (l : List Char) : dropMargin [] l = l := by
  simp [dropMargin, List.isPrefixOf]

theorem isPrefixOf_append_left (p a b : List Char) :
    (p ++ a).isPrefixOf (p ++ b) = a.isPrefixOf b := by
  induction p with
  | nil => rfl
  | cons c cs ih => simp [List.isPrefixOf, ih]

theorem dropMargin_append (p m l : List Char) (h : m.isPrefixOf l = true) :
    dropMargin (p ++ m) (p ++ l) = dropMargin m l := by
  induction p with
  | nil => rfl
  | cons c ps ih =>
    rw [← ih]
    have hXY : (ps ++ m).isPrefixOf (ps ++ l) = true := by
      rw [isPrefixOf_append_left]; exact h
    unfold dropMargin
    simp only [List.cons_append]
    rw [show ((c :: (ps ++ m)).isPrefixOf (c :: (ps ++ l)))
          = ((ps ++ m).isPrefixOf (ps ++ l)) from by simp [List.isPrefixOf]]
    rw [hXY]
    simp [List.drop_succ_cons]

theorem filter_hasContent_map (p : List Char) (hp : p.all isBlankChar = true)
    (lines : List (List Char)) :
    ((lines.map fun l => if hasContent l then p ++ l else []).filter hasContent)
      = ((lines.filter hasContent).map fun l => p ++ l) := by
  induction lines with
  | nil => rfl
  | cons l ls ih =>
    by_cases hc : hasContent l = true
    · simp [List.filter_cons, hc, hasContent_append_blank p l hp, ih]
    · simp only [Bool.not_eq_true] at hc
      simp only [List.map_cons, hc, Bool.false_eq_true, if_false, List.filter_cons]
      rw [show hasContent ([] : List Char) = false from rfl]
      simp [ih]

theorem computeMargin_map_append (p : List Char) (inds : List (List Char)) :
    computeMargin (inds.map fun x => p ++ x)
      = (computeMargin inds).map fun m => p ++ m := by
  cases inds with
  | nil => rfl
  | cons i is =>
    simp [computeMargin, marginStep_funext, foldl_lcp_append]

/-- Core invariance: dedenting is unchanged by a uniform blank prefix on
every line. -/
theorem dedentLines_map_append (p : List Char) (hp : p.all isBlankChar = true)
    (lines : List (List Char)) :
    dedentLines (lines.map fun l => p ++ l) = dedentLines lines := by
  by_cases hpn : p = []
  · subst hpn; simp
  · unfold dedentLines
    have hmap2 : (lines.map fun l => p ++ l).map blankOutWsLine
        = lines.map fun l => if hasContent l then p ++ l else [] := by
      rw [List.map_map]
      exact List.map_congr_left fun l _ => blankOut_append p l hp
    have hmap1 : lines.map blankOutWsLine
        = lines.map fun l => if hasContent l then l else [] := by
      exact List.map_congr_left fun l _ => blankOut_eq l
    have hfilter1 : (lines.map blankOutWsLine).filter hasContent
        = lines.filter hasContent := by
      rw [hmap1]
      have := filter_hasContent_map [] (by simp) lines
      simpa using this
    have hfilter2 : ((lines.map fun l => p ++ l).map blankOutWsLine).filter hasContent
        = (lines.filter hasContent).map fun l => p ++ l := by
      rw [hmap2]
      exact filter_hasContent_map p hp lines
    have hindents : (((lines.map fun l => p ++ l).map blankOutWsLine).filter hasContent).map leadingWs
        = (((lines.map blankOutWsLine).filter hasContent).map leadingWs).map fun x => p ++ x := by
      rw [hfilter1, hfilter2, List.map_map, List.map_map]
      exact List.map_congr_left fun l _ => leadingWs_append p l hp
    rw [hindents, computeMargin_map_append]
    cases hcm : computeMargin (((lines.map blankOutWsLine).filter hasContent).map leadingWs) with
    | none =>
      simp only [Option.map_none']
      -- no content line anywhere: both step-1 results agree entry by entry
      have hnone : ∀ l ∈ lines, hasContent l = false := by
        intro l hl
        rcases hfc : lines.filter hasContent with _ | ⟨i, is⟩
        · have := List.filter_eq_nil_iff.mp hfc l hl
          simpa using this
        · exfalso
          rw [hfilter1, hfc] at hcm
          simp [computeMargin] at hcm
      rw [hmap1, hmap2]
      exact List.map_congr_left fun l hl => by simp [hnone l hl]
    | some m1 =>
      -- the margin of the indented text is `p ++ m1`
      simp only [Option.map_some']
      have hm2ne : ¬(p ++ m1 = []) := by
        intro hco
        exact hpn (List.append_eq_nil.mp hco).1
      rw [if_neg hm2ne]
      -- every content line has the margin as a prefix of its leading blanks
      have hpre : ∀ l ∈ lines, hasContent l = true → m1.isPrefixOf l = true := by
        intro l hl hc
        rcases hfc : lines.filter hasContent with _ | ⟨i, is⟩
        · exact absurd (List.filter_eq_nil_iff.mp hfc l hl) (by simp [hc])
        · rw [hfilter1, hfc] at hcm
          simp only [computeMargin, List.map_cons, Option.some_inj] at hcm
          have hmem : l ∈ lines.filter hasContent := List.mem_filter.mpr ⟨hl, hc⟩
          rw [hfc] at hmem
          have hws : m1 <+: leadingWs l := by
            rcases foldl_lcp_prefix (is.map leadingWs) (leadingWs i) with ⟨h1, h2⟩
            rw [marginStep_funext] at hcm
            rcases List.mem_cons.mp hmem with hh | hh
            · subst hh; rw [← hcm]; exact h1
            · rw [← hcm]; exact h2 _ (List.mem_map_of_mem leadingWs hh)
          exact List.isPrefixOf_iff_prefix.mpr
            (hws.trans (List.takeWhile_prefix isBlankChar))
      by_cases hm1 : m1 = []
      · subst hm1
        rw [if_pos rfl, hmap1, hmap2, List.map_map]
        refine List.map_congr_left fun l hl => ?_
        by_cases hc : hasContent l = true
        · simp only [Function.comp_apply, if_pos hc]
          rw [show dropMargin (p ++ []) (p ++ l) = dropMargin [] l from
            dropMargin_append p [] l (by simp [List.isPrefixOf])]
          rw [dropMargin_nil_margin]
        · simp only [Bool.not_eq_true] at hc
          simp only [Function.comp_apply, hc, Bool.false_eq_true, if_false]
          exact dropMargin_nil_of_ne _ hm2ne
      · rw [if_neg hm1, hmap1, hmap2, List.map_map, List.map_map]
        refine List.map_congr_left fun l hl => ?_
        by_cases hc : hasContent l = true
        · simp only [Function.comp_apply, if_pos hc]
          exact dropMargin_append p m1 l (hpre l hl hc)
        · simp only [Bool.not_eq_true] at hc
          simp only [Function.comp_apply, hc, Bool.false_eq_true, if_false]
          rw [dropMargin_nil_of_ne _ hm2ne, dropMargin_nil_of_ne _ hm1]

theorem splitOnNl_ne_nil : ∀ cs : List Char, splitOnNl cs ≠ [] := by
  intro cs
  induction cs with
  | nil => simp [splitOnNl]
  | cons c cs ih =>
    unfold splitOnNl
    by_cases hc : c = '\n'
    · simp [hc]
    · simp only [if_neg hc]
      rcases h : splitOnNl cs with _ | ⟨l, ls⟩
      · simp
      · simp

theorem mem_splitOnNl_no_nl : ∀ (cs : List Char) (l : List Char),
    l ∈ splitOnNl cs → '\n' ∉ l := by
  intro cs
  induction cs with
  | nil =>
    intro l hl
    simp only [splitOnNl, List.mem_singleton] at hl
    subst hl; simp
  | cons c cs ih =>
    intro l hl
    unfold splitOnNl at hl
    by_cases hc : c = '\n'
    · rw [if_pos hc] at hl
      rcases List.mem_cons.mp hl with h | h
      · subst h; simp
      · exact ih l h
    · rw [if_neg hc] at hl
      rcases h : splitOnNl cs with _ | ⟨x, xs⟩
      · exact absurd h (splitOnNl_ne_nil cs)
      · rw [h] at hl
        rcases List.mem_cons.mp hl with h1 | h1
        · subst h1
          intro hmem
          rcases List.mem_cons.mp hmem with h2 | h2
          · exact hc h2.symm
          · exact ih x (h ▸ List.mem_cons_self x xs) h2
        · exact ih l (h ▸ List.mem_cons_of_mem x h1)

theorem splitOnNl_no_nl (l : List Char) (h : '\n' ∉ l) : splitOnNl l = [l] := by
  induction l with
  | nil => rfl
  | cons c cs ih =>
    have hc : ¬(c = '\n') := fun hcc => h (hcc ▸ List.mem_cons_self c cs)
    have hcs : '\n' ∉ cs := fun hmem => h (List.mem_cons_of_mem c hmem)
    unfold splitOnNl
    rw [if_neg hc, ih hcs]

theorem splitOnNl_append_newline (l rest : List Char) (h : '\n' ∉ l) :
    splitOnNl (l ++ '\n' :: rest) = l :: splitOnNl rest := by
  induction l with
  | nil => simp [splitOnNl]
  | cons c cs ih =>
    have hc : ¬(c = '\n') := fun hcc => h (hcc ▸ List.mem_cons_self c cs)
    have hcs : '\n' ∉ cs := fun hmem => h (List.mem_cons_of_mem c hmem)
    simp only [List.cons_append, splitOnNl, List.append_eq, if_neg hc, ih hcs]

theorem splitOnNl_joinNl : ∀ L : List (List Char), L ≠ [] →
    (∀ l ∈ L, '\n' ∉ l) → splitOnNl (joinNl L) = L := by
  intro L
  induction L with
  | nil => intro h; exact absurd rfl h
  | cons l ls ih =>
    intro _ hno
    rcases ls with _ | ⟨l2, ls2⟩
    · exact splitOnNl_no_nl l (hno l (List.mem_cons_self l []))
    · rw [show joinNl (l :: l2 :: ls2) = l ++ '\n' :: joinNl (l2 :: ls2) from rfl]
      rw [splitOnNl_append_newline l _ (hno l (List.mem_cons_self l _))]
      rw [ih (by simp) fun x hx => hno x (List.mem_cons_of_mem l hx)]

/-- `textwrap.dedent` is invariant under uniform blank indentation of all
lines. -/
theorem dedent_indent_uniform (p : List Char) (hp : p.all isBlankChar = true)
    (s : String) :
    dedent (indent_uniform p s) = dedent s := by
  unfold dedent indent_uniform
  have hnl : '\n' ∉ p := by
    intro hmem
    have := List.all_eq_true.mp hp _ hmem
    simp [isBlankChar] at this
  have hlines : ∀ l ∈ (splitOnNl s.data).map fun l => p ++ l, '\n' ∉ l := by
    intro l hl
    rcases List.mem_map.mp hl with ⟨x, hx, rfl⟩
    intro hmem
    rcases List.mem_append.mp hmem with h | h
    · exact hnl h
    · exact mem_splitOnNl_no_nl s.data x hx h
  have hsplit : splitOnNl (joinNl ((splitOnNl s.data).map fun l => p ++ l))
      = (splitOnNl s.data).map fun l => p ++ l := by
    apply splitOnNl_joinNl
    · intro hnil
      exact splitOnNl_ne_nil s.data (List.map_eq_nil_iff.mp hnil)
    · exact hlines
  rw [show (String.mk (joinNl ((splitOnNl s.data).map fun l => p ++ l))).data
        = joinNl ((splitOnNl s.data).map fun l => p ++ l) from rfl]
  rw [hsplit, dedentLines_map_append p hp]

/-! ## Supporting lemmas for the claim theorems -/

set_option maxRecDepth 40000

theorem sameEntry_self (f : Finding) : sameEntry f f = true := by
  simp [sameEntry, findingEq]

theorem add64_lt (a b : Nat) : add64 a b < 2 ^ 64 :=
  Nat.mod_lt _ (by norm_num)

/-- The hash is always a 128-bit value (its two halves are masked to 64
bits by the final additions). -/
theorem mm3_hash128_lt (bs : List Nat) : mm3_hash128 bs < 2 ^ 128 := by
  have h : ∀ a b c d : Nat, add64 a b * 2 ^ 64 + add64 c d < 2 ^ 128 := by
    intro a b c d
    have h1 : add64 a b < 2 ^ 64 := add64_lt a b
    have h2 : add64 c d < 2 ^ 64 := add64_lt c d
    calc add64 a b * 2 ^ 64 + add64 c d
        < add64 a b * 2 ^ 64 + 2 ^ 64 := by omega
      _ = (add64 a b + 1) * 2 ^ 64 := by ring
      _ ≤ 2 ^ 64 * 2 ^ 64 := Nat.mul_le_mul_right _ (by omega)
      _ = 2 ^ 128 := by norm_num
  exact h _ _ _ _

theorem hexlify_length (bs : List Nat) : (hexlify bs).length = 2 * bs.length := by
  rw [show (hexlify bs).length
        = ((bs.map fun b => [hexDigitChar (b / 16), hexDigitChar (b % 16)]).flatten).length
      from rfl]
  induction bs with
  | nil => rfl
  | cons b tl ih =>
    simp only [List.map_cons, List.flatten_cons, List.length_append, List.length_cons,
      List.length_nil, ih]
    omega

theorem syntactic_identifier_str_eq (f : Finding) :
    f.syntactic_identifier_str
      = Except.ok (hexlify ((List.range 16).map fun i =>
          f.syntactic_identifier_int / 2 ^ (8 * (16 - 1 - i)) % 256)) := by
  unfold Finding.syntactic_identifier_str int_to_bytes_be
  rw [if_pos (by
    have := mm3_hash128_lt (utf8Encode (pyStrTuple4 f.check_id f.path f.index f.syntactic_context))
    simpa [Finding.syntactic_identifier_int, pymmh3_hash128] using this)]
  rfl

/-! ## The claim theorems -/

/-- C1: the spec says two Findings are equal (and hash-equal) iff their
identity-relevant attributes — including the occurrence index — are
equal.  The code violates this: `index` is declared `eq=False`, so the
attrs-generated `__eq__` ignores it, while `__hash__` (the murmur of the
identity tuple) does include it.  At the concrete failing input below,
two findings that differ only in their occurrence index compare equal
yet have different hashes, contradicting the claimed equivalence (and
the hash/equality contract asserted by the code's own `__hash__`
comment). -/
theorem finding_eq_ignores_index :
    findingEq exFinding exFinding1 = true ∧
    exFinding.index ≠ exFinding1.index ∧
    findingHash exFinding ≠ findingHash exFinding1 := by decide

/-- The `FindingSets` of claim C2: three identical findings under one key
in the baseline, five in the current snapshot. -/
def exSets : FindingSets :=
  { baseline_map := [(exKey, [exFinding, exFinding, exFinding])],
    current_map := [(exKey, [exFinding, exFinding, exFinding, exFinding, exFinding])] }

/-- C2: with baseline `[A,A,A]` and current `[A,A,A,A,A]` under one
FindingKey, `expensive_new()` has exactly 2 members, carrying occurrence
indices 3 and 4. -/
theorem expensive_new_three_vs_five :
    exSets.expensive_new = [evolveIndex exFinding 3, evolveIndex exFinding 4] ∧
    exSets.expensive_new.length = 2 ∧
    (evolveIndex exFinding 3).index = 3 ∧ (evolveIndex exFinding 4).index = 4 := by
  decide

/-- C3: matched source text is dedented on construction, so two raw
semgrep results that differ only in a uniform blank indentation of the
matched text yield Findings that are equal (Python `==`) and
hash-equal. -/
theorem from_semgrep_result_dedent_invariant (r : SemgrepResult) (p : List Char)
    (dt : Option DateTime) (hp : p.all isBlankChar = true) :
    findingEq (Finding.from_semgrep_result r dt).2
        (Finding.from_semgrep_result { r with lines := indent_uniform p r.lines } dt).2 = true ∧
    findingHash (Finding.from_semgrep_result r dt).2
      = findingHash (Finding.from_semgrep_result { r with lines := indent_uniform p r.lines } dt).2 := by
  have hctx : dedent (indent_uniform p r.lines) = dedent r.lines :=
    dedent_indent_uniform p hp r.lines
  constructor
  · simp [findingEq, Finding.from_semgrep_result, mkFinding, hctx]
  · simp [findingHash, Finding.syntactic_identifier_int, Finding.from_semgrep_result,
      mkFinding, hctx]

/-- A raw result whose matched text spans two indented lines. -/
def exResult : SemgrepResult :=
  { check_id := "rule", path := "a.py", start_line := 1, start_col := 1,
    result_end_line := 2, result_end_col := 5, lines := "  if x:\n    pass",
    message := "msg", severity := "ERROR", metadata := [] }

theorem from_semgrep_result_dedent_invariant_witness :
    findingEq (Finding.from_semgrep_result exResult Option.none).2
      (Finding.from_semgrep_result
        { exResult with lines := indent_uniform [' ', ' '] exResult.lines } Option.none).2
      = true :=
  (from_semgrep_result_dedent_invariant exResult [' ', ' '] Option.none (by decide)).1

/-- C6: the spec says `to_dict` returns a mapping with null-valued fields
omitted for any Finding.  The code first filters `None` values out of
`attr.asdict`, then unconditionally evaluates `d["commit_date"]`, which
raises `KeyError` precisely when `commit_date` is `None` (the filter just
removed the key).  Evaluated at the failing input (a Finding with
`commit_date=None`): -/
theorem to_dict_keyerror_on_null_commit_date :
    exFinding.commit_date = Option.none ∧
    exFinding.to_dict = Except.error "KeyError: commit_date" :=
  ⟨rfl, rfl⟩

/-- C7: diffing a snapshot against itself yields no new findings. -/
theorem expensive_new_self_empty (m : List (FindingKey × List Finding)) :
    FindingSets.expensive_new { baseline_map := m, current_map := m } = [] := by
  unfold FindingSets.expensive_new FindingSets.current_set FindingSets.baseline_set pySetDiff
  rw [List.filter_eq_nil_iff]
  intro f hf
  have hany : (map_to_set m).any (sameEntry f) = true :=
    List.any_eq_true.mpr ⟨f, hf, sameEntry_self f⟩
  simp [hany]

/-- C8: baseline `[]` against current `[A]` yields `{A@index0}`, and
baseline `[A]` against current `[]` yields the empty set — a finding
that disappears is never reported as new. -/
theorem expensive_new_single_appear_disappear :
    FindingSets.expensive_new
        { baseline_map := [(exKey, [])], current_map := [(exKey, [exFinding])] }
      = [evolveIndex exFinding 0] ∧
    (evolveIndex exFinding 0).index = 0 ∧
    FindingSets.expensive_new
        { baseline_map := [(exKey, [exFinding])], current_map := [(exKey, [])] }
      = [] := by
  decide

/-- C9: the 128-bit syntactic identifier is a deterministic function of
(rule id, path, occurrence index, matched text): equal tuples give the
same identifier integer and the same 32-character hex rendering. -/
theorem syntactic_identifier_deterministic (f g : Finding)
    (h1 : f.check_id = g.check_id) (h2 : f.path = g.path)
    (h3 : f.index = g.index) (h4 : f.syntactic_context = g.syntactic_context) :
    f.syntactic_identifier_int = g.syntactic_identifier_int ∧
    ∃ s : String, f.syntactic_identifier_str = Except.ok s ∧
      g.syntactic_identifier_str = Except.ok s ∧ s.length = 32 := by
  have hint : f.syntactic_identifier_int = g.syntactic_identifier_int := by
    unfold Finding.syntactic_identifier_int
    rw [h1, h2, h3, h4]
  refine ⟨hint, hexlify ((List.range 16).map fun i =>
      f.syntactic_identifier_int / 2 ^ (8 * (16 - 1 - i)) % 256), ?_, ?_, ?_⟩
  · exact syntactic_identifier_str_eq f
  · rw [syntactic_identifier_str_eq g, hint]
  · rw [hexlify_length]
    simp

/-- The same finding with a different (identity-irrelevant) line number. -/
def exFindingLine99 : Finding := { exFinding with line := 99 }

theorem syntactic_identifier_deterministic_witness :
    exFinding.syntactic_identifier_int = exFindingLine99.syntactic_identifier_int :=
  (syntactic_identifier_deterministic exFinding exFindingLine99 rfl rfl rfl rfl).1

/-- C10: `is_blocking()` is true iff the metadata does not list a
non-blocking disposition under `"dev.semgrep.actions"`; in particular,
when the key is absent the default `["block"]` applies and the finding
blocks. -/
theorem is_blocking_default_block (f : Finding) :
    (f.is_blocking = true ↔
      ∀ actions, metaGet f.metadata "dev.semgrep.actions" = Option.some actions →
        "block" ∈ actions) ∧
    (metaGet f.metadata "dev.semgrep.actions" = Option.none → f.is_blocking = true) := by
  unfold Finding.is_blocking
  cases h : metaGet f.metadata "dev.semgrep.actions" with
  | none =>
    refine ⟨?_, fun _ => by simp⟩
    simp
  | some actions =>
    refine ⟨?_, fun hcon => by simp at hcon ⊢⟩
    simp only [Option.getD_some, Option.some_inj]
    constructor
    · intro hc a ha
      subst ha
      exact List.elem_iff.mp hc
    · intro hall
      exact List.elem_iff.mpr (hall actions rfl)

/-- C4 counterexample: the claim says no checkout occurs when the
requested head ref is already the checked-out position.  In the state
below HEAD is on branch `main` and the head ref is `main`, yet the
function issues `git checkout main`. -/
theorem checkout_even_when_on_head_ref :
    exRepo.current_branch = "main" ∧
    GitCmd.checkout "main" ∈
      (fix_head_for_github (Option.some exRepo) Option.none (Option.some "main") exBody).2 := by
  decide

/-- C4 (amended): with a repository present (and the base ref resolvable
when truthy), `fix_head_for_github` checks out the head ref iff a
(truthy) head ref is given — it never compares the head ref with the
currently checked-out position; and when no head ref is given, no
checkout at all is issued. -/
theorem checkout_iff_head_ref_given {α : Type} (repo : GitRepo) (base head : Option String)
    (body : Option String → Except String α)
    (hbase : truthy base = true → (repo.resolve (base.getD "")).isSome = true) :
    (truthy head = true →
      GitCmd.checkout (head.getD "") ∈ (fix_head_for_github (Option.some repo) base head body).2) ∧
    (truthy head = false →
      ∀ x, GitCmd.checkout x ∉ (fix_head_for_github (Option.some repo) base head body).2) := by
  rcases base with _ | b
  · -- no base ref
    rcases head with _ | h
    · constructor
      · intro hcon; simp [truthy] at hcon
      · intro _ x
        simp [fix_head_for_github]
    · by_cases hh : h = ""
      · subst hh
        constructor
        · intro hcon; simp [truthy] at hcon
        · intro _ x
          simp [fix_head_for_github]
      · have hhb : (h == "") = false := beq_eq_false_iff_ne.mpr hh
        constructor
        · intro _
          cases hcb : repo.current_branch == "" <;>
            rcases hres : repo.resolve h with _ | rh <;>
              simp [fix_head_for_github, hhb, hcb, hres]
        · intro hcon; simp [truthy, hhb] at hcon
  · by_cases hb : b = ""
    · subst hb
      rcases head with _ | h
      · constructor
        · intro hcon; simp [truthy] at hcon
        · intro _ x
          simp [fix_head_for_github]
      · by_cases hh : h = ""
        · subst hh
          constructor
          · intro hcon; simp [truthy] at hcon
          · intro _ x
            simp [fix_head_for_github]
        · have hhb : (h == "") = false := beq_eq_false_iff_ne.mpr hh
          constructor
          · intro _
            cases hcb : repo.current_branch == "" <;>
              rcases hres : repo.resolve h with _ | rh <;>
                simp [fix_head_for_github, hhb, hcb, hres]
          · intro hcon; simp [truthy, hhb] at hcon
    · have hbb : (b == "") = false := beq_eq_false_iff_ne.mpr hb
      have hres0 : (repo.resolve b).isSome = true := by
        have := hbase (by simp [truthy, hbb])
        simpa using this
      rcases hresb : repo.resolve b with _ | rb
      · rw [hresb] at hres0; simp at hres0
      · rcases head with _ | h
        · constructor
          · intro hcon; simp [truthy] at hcon
          · intro _ x
            simp [fix_head_for_github, hbb, hresb]
        · by_cases hh : h = ""
          · subst hh
            constructor
            · intro hcon; simp [truthy] at hcon
            · intro _ x
              simp [fix_head_for_github, hbb, hresb]
          · have hhb : (h == "") = false := beq_eq_false_iff_ne.mpr hh
            constructor
            · intro _
              cases hcb : repo.current_branch == "" <;>
                rcases hres : repo.resolve h with _ | rh <;>
                  simp [fix_head_for_github, hbb, hresb, hhb, hcb, hres]
            · intro hcon; simp [truthy, hhb] at hcon

theorem checkout_iff_head_ref_given_witness :
    GitCmd.checkout "feature" ∈
      (fix_head_for_github (Option.some exRepo) (Option.some "base") (Option.some "feature")
        exBody).2 :=
  (checkout_iff_head_ref_given exRepo (Option.some "base") (Option.some "feature") exBody
    (fun _ => by decide)).1 (by decide)

/-- C5: whenever a (truthy) head ref was given — so a position was
recorded and the head ref checked out — the recorded original position
(the current branch, or the HEAD hash when detached) is checked out
again as the very last git command of the scope, and the body's outcome
(including an error) is what the scope returns: the restoration runs
before any error propagates. -/
theorem restore_on_scope_exit {α : Type} (repo : GitRepo) (base head : Option String)
    (body : Option String → Except String α)
    (hhead : truthy head = true)
    (hbase : truthy base = true → (repo.resolve (base.getD "")).isSome = true)
    (hco : (repo.resolve (head.getD "")).isSome = true) :
    (∃ tr, (fix_head_for_github (Option.some repo) base head body).2
        = tr ++ [GitCmd.checkout
            (if repo.current_branch == "" then repo.head_rev else repo.current_branch)]) ∧
    ∃ br, (fix_head_for_github (Option.some repo) base head body).1 = body br := by
  rcases head with _ | h
  · simp [truthy] at hhead
  · by_cases hh : h = ""
    · subst hh; simp [truthy] at hhead
    · have hhb : (h == "") = false := beq_eq_false_iff_ne.mpr hh
      have hresh : (repo.resolve h).isSome = true := by simpa using hco
      rcases hresh2 : repo.resolve h with _ | rh
      · rw [hresh2] at hresh; simp at hresh
      · rcases base with _ | b
        · cases hcb : repo.current_branch == ""
          · refine ⟨⟨[GitCmd.branch_show_current, GitCmd.checkout h], ?_⟩,
              ⟨Option.none, ?_⟩⟩ <;>
              simp [fix_head_for_github, hhb, hcb, hresh2]
          · refine ⟨⟨[GitCmd.branch_show_current, GitCmd.rev_parse "HEAD",
                GitCmd.checkout h], ?_⟩, ⟨Option.none, ?_⟩⟩ <;>
              simp [fix_head_for_github, hhb, hcb, hresh2]
        · by_cases hb : b = ""
          · subst hb
            cases hcb : repo.current_branch == ""
            · refine ⟨⟨[GitCmd.branch_show_current, GitCmd.checkout h,
                  GitCmd.log "..HEAD"], ?_⟩, ⟨Option.some "", ?_⟩⟩ <;>
                simp [fix_head_for_github, hhb, hcb, hresh2]
            · refine ⟨⟨[GitCmd.branch_show_current, GitCmd.rev_parse "HEAD",
                  GitCmd.checkout h, GitCmd.log "..HEAD"], ?_⟩, ⟨Option.some "", ?_⟩⟩ <;>
                simp [fix_head_for_github, hhb, hcb, hresh2]
          · have hbb : (b == "") = false := beq_eq_false_iff_ne.mpr hb
            have hres0 : (repo.resolve b).isSome = true := by
              have := hbase (by simp [truthy, hbb])
              simpa using this
            rcases hresb : repo.resolve b with _ | rb
            · rw [hresb] at hres0; simp at hres0
            · cases hcb : repo.current_branch == ""
              · refine ⟨⟨[GitCmd.rev_parse b, GitCmd.branch_show_current,
                    GitCmd.checkout h, GitCmd.log (rb ++ "..HEAD")], ?_⟩,
                  ⟨Option.some rb, ?_⟩⟩ <;>
                  simp [fix_head_for_github, hhb, hbb, hcb, hresh2, hresb]
              · refine ⟨⟨[GitCmd.rev_parse b, GitCmd.branch_show_current,
                    GitCmd.rev_parse "HEAD", GitCmd.checkout h,
                    GitCmd.log (rb ++ "..HEAD")], ?_⟩, ⟨Option.some rb, ?_⟩⟩ <;>
                  simp [fix_head_for_github, hhb, hbb, hcb, hresh2, hresb]

theorem restore_on_scope_exit_witness :
    (fix_head_for_github (Option.some exRepo) (Option.some "base") (Option.some "feature")
        exErrBody).1
      = Except.error "RuntimeError: boom" := by
  obtain ⟨⟨tr, htr⟩, ⟨br, hres⟩⟩ := restore_on_scope_exit exRepo (Option.some "base")
    (Option.some "feature") exErrBody (by decide) (fun _ => by decide) (by decide)
  rw [hres]
  rfl

end SemgrepAction
